import Mathlib

/-
  Verification of the flowsurface time-series aggregation engine.

  Shallow embedding of `src/data/src/aggr/time.rs` and
  `src/data/src/chart/kline.rs`:
    * `u64` timestamps are `Nat` (where a claim concerns u64 overflow the
      wrap bound `2^64` is made explicit, see the `fitsU64` development);
    * `Price` / `PriceStep` come from the `exchange` crate which is not part
      of the sources here, so they are modelled from the spec: a price is a
      quantized fixed-point value (an `Int` in price units), a step is a
      positive `Int`, with nearest-multiple (ties up) and side-aware
      (sell down / buy up) rounding;
    * `f32` trade quantities are embedded as exact rationals `ℚ`;
    * `FxHashMap<Price, GroupedTrades>` is an association list in insertion
      order (iteration order of the hash map is unspecified in the source;
      all properties proved below are independent of the order);
    * `BTreeMap<u64, D>` is an association list sorted strictly by key;
      range queries become key filters on that sorted list.
-/

namespace Flowsurface

/-- Modelled from the spec: `exchange::util::Price` is a quantized
fixed-point price; embedded as an `Int` in fixed-point units.
`Price::from_f32(0.0)` is `0`. -/
abbrev Price := Int

/-- Modelled from the spec: `exchange::util::PriceStep` is the quantization
unit, an `Int` in the same fixed-point units as `Price`. -/
abbrev PriceStep := Int

/-- Modelled from the spec: `Price::round_to_step` quantizes to the nearest
multiple of `step`, ties rounding up. -/
def roundToStep (p : Price) (step : PriceStep) : Price :=
  (Int.fdiv (2 * p + step) (2 * step)) * step

/-- Modelled from the spec: `Price::round_to_side_step` quantizes
asymmetrically: sell rounds down to a multiple of `step`, buy rounds up. -/
def roundToSideStep (isSell : Bool) (p : Price) (step : PriceStep) : Price :=
  if isSell then (Int.fdiv p step) * step else -((Int.fdiv (-p) step) * step)

/-- Modelled from the spec: a parsed trade — timestamp (ms), price,
quantity, side flag. -/
structure Trade where
  time : Nat
  price : Price
  qty : ℚ
  is_sell : Bool
deriving Repr, DecidableEq

/-- Modelled from the spec: a parsed candle — bucket timestamp (ms), OHLC
prices and the buy/sell volume pair. Field `open` of the Rust struct is
`openP` here (`open` is reserved). -/
structure Kline where
  time : Nat
  openP : Price
  high : Price
  low : Price
  close : Price
  volume : ℚ × ℚ
deriving Repr, DecidableEq

/-- `GroupedTrades` of `kline.rs`: per-price-bin running totals. -/
structure GroupedTrades where
  buy_qty : ℚ
  sell_qty : ℚ
  first_time : Nat
  last_time : Nat
  buy_count : Nat
  sell_count : Nat
deriving Repr, DecidableEq

namespace GroupedTrades

/-- `GroupedTrades::new` of `kline.rs`. -/
def new (trade : Trade) : GroupedTrades where
  buy_qty := if trade.is_sell then 0 else trade.qty
  sell_qty := if trade.is_sell then trade.qty else 0
  first_time := trade.time
  last_time := trade.time
  buy_count := if trade.is_sell then 0 else 1
  sell_count := if trade.is_sell then 1 else 0

/-- `GroupedTrades::add_trade` of `kline.rs`. -/
def add_trade (g : GroupedTrades) (trade : Trade) : GroupedTrades :=
  if trade.is_sell then
    { g with sell_qty := g.sell_qty + trade.qty,
             sell_count := g.sell_count + 1,
             last_time := trade.time }
  else
    { g with buy_qty := g.buy_qty + trade.qty,
             buy_count := g.buy_count + 1,
             last_time := trade.time }

/-- `GroupedTrades::total_qty` of `kline.rs`. -/
def total_qty (g : GroupedTrades) : ℚ := g.buy_qty + g.sell_qty

end GroupedTrades

/-- `NPoc` of `kline.rs`: naked-POC fill status. The Rust field `at` of
`Filled` is `t` here (`at` is reserved). -/
inductive NPoc where
  | none
  | naked
  | filled (t : Nat)
deriving Repr, DecidableEq

/-- `PointOfControl` of `kline.rs`. -/
structure PointOfControl where
  price : Price
  volume : ℚ
  status : NPoc
deriving Repr, DecidableEq

/-- `KlineTrades` of `kline.rs`: the footprint — price bins plus the
optional POC. The `FxHashMap` is an insertion-ordered association list. -/
structure KlineTrades where
  trades : List (Price × GroupedTrades)
  poc : Option PointOfControl
deriving Repr, DecidableEq

namespace KlineTrades

/-- `KlineTrades::new` of `kline.rs`. -/
def new : KlineTrades := { trades := [], poc := Option.none }

/-- The `entry(price).and_modify(add_trade).or_insert_with(new)` pattern of
`kline.rs` on the association-list embedding of the hash map. -/
def addOrModify (price : Price) (trade : Trade) :
    List (Price × GroupedTrades) → List (Price × GroupedTrades)
  | [] => [(price, GroupedTrades.new trade)]
  | pg :: rest =>
      if pg.1 = price then (pg.1, pg.2.add_trade trade) :: rest
      else pg :: addOrModify price trade rest

/-- `KlineTrades::add_trade_to_nearest_bin` of `kline.rs`. -/
def add_trade_to_nearest_bin (kt : KlineTrades) (trade : Trade)
    (step : PriceStep) : KlineTrades :=
  { kt with trades := addOrModify (roundToStep trade.price step) trade kt.trades }

/-- `KlineTrades::first_trade_t` of `kline.rs`: minimum of the bins'
`first_time` fields. -/
def first_trade_t (kt : KlineTrades) : Option Nat :=
  (kt.trades.map (fun pg => pg.2.first_time)).min?

/-- `KlineTrades::last_trade_t` of `kline.rs`: maximum of the bins'
`last_time` fields. -/
def last_trade_t (kt : KlineTrades) : Option Nat :=
  (kt.trades.map (fun pg => pg.2.last_time)).max?

/-- `KlineTrades::calculate_poc` of `kline.rs`: early return on an empty
bin map, otherwise a single scan tracking the running maximum total
quantity, starting from volume `0.0` and price `Price::from_f32(0.0)`. -/
def calculate_poc (kt : KlineTrades) : KlineTrades :=
  if kt.trades.isEmpty then kt
  else
    let mv := kt.trades.foldl
      (fun acc pg => if pg.2.total_qty > acc.1 then (pg.2.total_qty, pg.1) else acc)
      ((0 : ℚ), (0 : Price))
    { kt with poc := some { price := mv.2, volume := mv.1, status := NPoc.none } }

/-- `KlineTrades::set_poc_status` of `kline.rs`: updates the status only
when a POC is present. -/
def set_poc_status (kt : KlineTrades) (status : NPoc) : KlineTrades :=
  match kt.poc with
  | Option.none => kt
  | some poc => { kt with poc := some { poc with status := status } }

/-- `KlineTrades::poc_price` of `kline.rs`. -/
def poc_price (kt : KlineTrades) : Option Price :=
  kt.poc.map (fun poc => poc.price)

/-- `KlineTrades::clear` of `kline.rs`. -/
def clear (_kt : KlineTrades) : KlineTrades := { trades := [], poc := Option.none }

end KlineTrades

/-- `KlineDataPoint` of `kline.rs`: one bucket — candle plus footprint. -/
structure KlineDataPoint where
  kline : Kline
  footprint : KlineTrades
deriving Repr, DecidableEq

namespace KlineDataPoint

/-- `KlineDataPoint::add_trade` of `kline.rs`. -/
def add_trade (dp : KlineDataPoint) (trade : Trade) (step : PriceStep) :
    KlineDataPoint :=
  { dp with footprint := dp.footprint.add_trade_to_nearest_bin trade step }

/-- `KlineDataPoint::poc_price` of `kline.rs`. -/
def poc_price (dp : KlineDataPoint) : Option Price := dp.footprint.poc_price

/-- `KlineDataPoint::set_poc_status` of `kline.rs`. -/
def set_poc_status (dp : KlineDataPoint) (status : NPoc) : KlineDataPoint :=
  { dp with footprint := dp.footprint.set_poc_status status }

/-- `KlineDataPoint::calculate_poc` of `kline.rs`. -/
def calculate_poc (dp : KlineDataPoint) : KlineDataPoint :=
  { dp with footprint := dp.footprint.calculate_poc }

/-- `KlineDataPoint::last_trade_time` of `kline.rs`. -/
def last_trade_time (dp : KlineDataPoint) : Option Nat :=
  dp.footprint.last_trade_t

/-- `KlineDataPoint::first_trade_time` of `kline.rs`. -/
def first_trade_time (dp : KlineDataPoint) : Option Nat :=
  dp.footprint.first_trade_t

/-- `DataPoint::value_high` for `KlineDataPoint` (`kline.rs`). -/
def value_high (dp : KlineDataPoint) : Price := dp.kline.high

/-- `DataPoint::value_low` for `KlineDataPoint` (`kline.rs`). -/
def value_low (dp : KlineDataPoint) : Price := dp.kline.low

end KlineDataPoint

/-- `TimeSeries<KlineDataPoint>` of `time.rs`. The `BTreeMap` is a
key-sorted association list (`sortedKeys` states the invariant); the
interval is already converted to milliseconds (`Timeframe` lives in the
`exchange` crate; the spec only requires it to be convertible to a
positive number of milliseconds). -/
structure TimeSeries where
  datapoints : List (Nat × KlineDataPoint)
  interval : Nat
  tick_size : PriceStep
deriving Repr, DecidableEq

/-- The `BTreeMap` invariant: keys strictly increase along the list. -/
abbrev sortedKeys (l : List (Nat × KlineDataPoint)) : Prop :=
  l.Pairwise (fun a b => a.1 < b.1)

/-- `BTreeMap::get` on the association-list embedding. -/
def lookupTime (t : Nat) (l : List (Nat × KlineDataPoint)) :
    Option KlineDataPoint :=
  (l.find? (fun kd => kd.1 == t)).map Prod.snd

/-- `BTreeMap::contains_key` on the association-list embedding. -/
def containsKey (t : Nat) (l : List (Nat × KlineDataPoint)) : Bool :=
  l.any (fun kd => kd.1 == t)

namespace TimeSeries

/-- `TimeSeries::timerange` of `time.rs`. -/
def timerange (ts : TimeSeries) : Nat × Nat :=
  ((ts.datapoints.map Prod.fst).head?.getD 0,
   (ts.datapoints.map Prod.fst).getLast?.getD 0)

/-- `TimeSeries::price_scale` of `time.rs`: walk the most recent
`lookback` buckets (reverse iteration plus `take`), seeding high/low from
the first visited bucket and widening strictly outward. -/
def price_scale (ts : TimeSeries) (lookback : Nat) : Price × Price :=
  match ts.datapoints.reverse.take lookback with
  | [] => ((0 : Price), (0 : Price))
  | kd :: rest =>
      rest.foldl
        (fun hl kd' =>
          (if kd'.2.value_high > hl.1 then kd'.2.value_high else hl.1,
           if kd'.2.value_low < hl.2 then kd'.2.value_low else hl.2))
        (kd.2.value_high, kd.2.value_low)

end TimeSeries

/-- First while-loop of `TimeSeries::check_kline_integrity` (`time.rs`):
walk `earliest, earliest+interval, …` below `latest` and stop at the first
missing key. The Rust loop terminates only for a positive interval, hence
the `0 < i` guard inside the recursion. -/
def hasMissingKey (mem : Nat → Bool) (time l i : Nat) : Bool :=
  if h : time < l ∧ 0 < i then
    if mem time then hasMissingKey mem (time + i) l i else true
  else false
termination_by l - time
decreasing_by omega

/-- Second while-loop of `TimeSeries::check_kline_integrity` (`time.rs`):
collect every missing expected key. -/
def collectMissing (mem : Nat → Bool) (time l i : Nat) : List Nat :=
  if h : time < l ∧ 0 < i then
    if mem time then collectMissing mem (time + i) l i
    else time :: collectMissing mem (time + i) l i
  else []
termination_by l - time
decreasing_by all_goals omega

/-- `TimeSeries::check_kline_integrity` of `time.rs`: a short-circuiting
detection walk, then a full collection walk when something was missing. -/
def TimeSeries.check_kline_integrity (ts : TimeSeries) (earliest latest interval : Nat) :
    Option (List Nat) :=
  if hasMissingKey (fun t => containsKey t ts.datapoints) earliest latest interval then
    some (collectMissing (fun t => containsKey t ts.datapoints) earliest latest interval)
  else
    Option.none

/-- The expected key walk `earliest, earliest+interval, … < latest`,
stated as a list (the specification's independent recomputation). -/
def expectedKeys (time l i : Nat) : List Nat :=
  if h : time < l ∧ 0 < i then time :: expectedKeys (time + i) l i else []
termination_by l - time
decreasing_by omega

/-- The containment test of the forward scan in
`TimeSeries::update_poc_status` (`time.rs`): the later bucket's low rounded
down (sell side) and high rounded up (buy side) bracket the POC price. -/
def containsPoc (step : PriceStep) (p : Price) (dp : KlineDataPoint) : Prop :=
  roundToSideStep true dp.kline.low step ≤ p ∧
    p ≤ roundToSideStep false dp.kline.high step

instance (step : PriceStep) (p : Price) (dp : KlineDataPoint) :
    Decidable (containsPoc step p dp) := by
  unfold containsPoc; infer_instance

/-- The inner `for` loop of `TimeSeries::update_poc_status` (`time.rs`):
walk the later buckets in ascending order carrying the mutable `npoc`
(initially `NPoc::default()`); the first containing bucket fills and
breaks, every non-containing bucket overwrites with `Naked`. -/
def scanNpoc (step : PriceStep) (p : Price) :
    List (Nat × KlineDataPoint) → NPoc → NPoc
  | [], acc => acc
  | kd :: rest, acc =>
      if containsPoc step p kd.2 then NPoc.filled kd.1
      else scanNpoc step p rest NPoc.naked

/-- `BTreeMap::get_mut(&time)` followed by `set_poc_status` (`time.rs`):
only the entry with the given key is rewritten. -/
def setPocStatusAt (t : Nat) (st : NPoc) (l : List (Nat × KlineDataPoint)) :
    List (Nat × KlineDataPoint) :=
  l.map (fun kd => if kd.1 = t then (kd.1, kd.2.set_poc_status st) else kd)

/-- `TimeSeries::update_poc_status` of `time.rs`: collect `(time, poc
price)` pairs from the current map, then for each pair scan the strictly
later buckets (`range(current_time + 1 ..)`) of the evolving map and store
the resulting status back into the bucket. -/
def TimeSeries.update_poc_status (ts : TimeSeries) : TimeSeries :=
  let updates := ts.datapoints.filterMap
    (fun kd => (kd.2.poc_price).map (fun p => (kd.1, p)))
  let dps := updates.foldl
    (fun dps cp =>
      let npoc := scanNpoc ts.tick_size cp.2
        (dps.filter (fun kd => cp.1 + 1 ≤ kd.1)) NPoc.none
      setPocStatusAt cp.1 npoc dps)
    ts.datapoints
  { ts with datapoints := dps }

/-- The bucket seeded by `or_insert_with` in
`TimeSeries::insert_trades_or_create_bucket` (`time.rs`): OHLC from the
trade's price, zero volume, empty footprint. -/
def seedBucket (roundedTime : Nat) (trade : Trade) : KlineDataPoint where
  kline :=
    { time := roundedTime
      openP := trade.price
      high := trade.price
      low := trade.price
      close := trade.price
      volume := ((0 : ℚ), (0 : ℚ)) }
  footprint := KlineTrades.new

/-- The `entry(rounded_time).or_insert_with(seed)` + `add_trade` step of
`TimeSeries::insert_trades_or_create_bucket` (`time.rs`) on the sorted
association list: insert at the sorted position when absent, then route
the trade into (either) bucket. -/
def upsertTrade (step : PriceStep) (rt : Nat) (trade : Trade) :
    List (Nat × KlineDataPoint) → List (Nat × KlineDataPoint)
  | [] => [(rt, (seedBucket rt trade).add_trade trade step)]
  | kd :: rest =>
      if rt < kd.1 then
        (rt, (seedBucket rt trade).add_trade trade step) :: kd :: rest
      else if rt = kd.1 then (kd.1, kd.2.add_trade trade step) :: rest
      else kd :: upsertTrade step rt trade rest

/-- The second pass of both trade-insertion entry points (`time.rs`):
`get_mut(&time)` + `calculate_poc` for one touched key. -/
def applyPocAt (t : Nat) (l : List (Nat × KlineDataPoint)) :
    List (Nat × KlineDataPoint) :=
  l.map (fun kd => if kd.1 = t then (kd.1, kd.2.calculate_poc) else kd)

/-- The deduplicating `updated_times` push of `time.rs`
(`if !updated_times.contains(&t) { updated_times.push(t) }`). -/
def pushNew (times : List Nat) (t : Nat) : List Nat :=
  if times.contains t then times else times ++ [t]

/-- `TimeSeries::insert_trades_or_create_bucket` of `time.rs`: early
return on an empty buffer; one pass routing each trade into the bucket at
`(trade.time / aggr_time) * aggr_time` (created and seeded when absent)
while recording touched bucket times deduplicated; then a second pass
recomputing the POC of each touched bucket. -/
def TimeSeries.insert_trades_or_create_bucket (ts : TimeSeries)
    (buffer : List Trade) : TimeSeries :=
  if buffer.isEmpty then ts
  else
    let aggr_time := ts.interval
    let acc := buffer.foldl
      (fun acc trade =>
        let rounded_time := trade.time / aggr_time * aggr_time
        (upsertTrade ts.tick_size rounded_time trade acc.1,
         pushNew acc.2 rounded_time))
      (ts.datapoints, ([] : List Nat))
    { ts with datapoints := acc.2.foldl (fun l t => applyPocAt t l) acc.1 }

/-- The routing step of `TimeSeries::insert_trades_existing_buckets`
(`time.rs`): `get_mut` + `add_trade`, leaving the map unchanged when the
bucket is absent. -/
def modifyTradeAt (step : PriceStep) (rt : Nat) (trade : Trade)
    (l : List (Nat × KlineDataPoint)) : List (Nat × KlineDataPoint) :=
  l.map (fun kd => if kd.1 = rt then (kd.1, kd.2.add_trade trade step) else kd)

/-- `TimeSeries::insert_trades_existing_buckets` of `time.rs`: like
`insert_trades_or_create_bucket` but trades whose rounded time has no
bucket are silently dropped (and not recorded as touched). -/
def TimeSeries.insert_trades_existing_buckets (ts : TimeSeries)
    (buffer : List Trade) : TimeSeries :=
  if buffer.isEmpty then ts
  else
    let aggr_time := ts.interval
    let acc := buffer.foldl
      (fun acc trade =>
        let rounded_time := trade.time / aggr_time * aggr_time
        if containsKey rounded_time acc.1 then
          (modifyTradeAt ts.tick_size rounded_time trade acc.1,
           pushNew acc.2 rounded_time)
        else acc)
      (ts.datapoints, ([] : List Nat))
    { ts with datapoints := acc.2.foldl (fun l t => applyPocAt t l) acc.1 }

/-- The saturation bound of `u64`. -/
def U64MAX : Nat := 2 ^ 64 - 1

/-- `u64::saturating_add` (used in `suggest_trade_fetch_range`). -/
def satAdd (a b : Nat) : Nat := min (a + b) U64MAX

/-- `TimeSeries::find_trade_gap` of `time.rs`: the most recent bucket with
an empty footprint (reverse scan); around it, the nearest earlier bucket's
last trade time (`range(..target).rev().find_map(last_trade_time)`) and
the nearest later bucket's first trade time
(`range(target + 1..).find_map(first_trade_time)`). -/
def TimeSeries.find_trade_gap (ts : TimeSeries) :
    Option (Option Nat × Option Nat) :=
  match ts.datapoints.reverse.find? (fun kd => kd.2.footprint.trades.isEmpty) with
  | Option.none => Option.none
  | some target =>
      let lastBefore := ((ts.datapoints.filter (fun kd => kd.1 < target.1)).reverse).findSome?
        (fun kd => kd.2.last_trade_time)
      let firstAfter := (ts.datapoints.filter (fun kd => target.1 + 1 ≤ kd.1)).findSome?
        (fun kd => kd.2.first_trade_time)
      some (lastBefore, firstAfter)

/-- `TimeSeries::suggest_trade_fetch_range` of `time.rs`: around the
detected gap, fetch from `last_before.saturating_add(1)` (or the data
start) clamped up to the visible start, to `first_after.saturating_sub(1)`
(or the data end) clamped down to the visible end; answer only a window
with `fetch_from < fetch_to`. -/
def TimeSeries.suggest_trade_fetch_range (ts : TimeSeries)
    (visible_earliest visible_latest : Nat) : Option (Nat × Nat) :=
  if ts.datapoints.isEmpty then Option.none
  else
    match ts.find_trade_gap with
    | Option.none => Option.none
    | some gap =>
        if gap.1 = Option.none ∧ gap.2 = Option.none then Option.none
        else
          let dataRange := ts.timerange
          let fetch_from :=
            max ((gap.1.map (fun t => satAdd t 1)).getD dataRange.1) visible_earliest
          let fetch_to :=
            min ((gap.2.map (fun t => t - 1)).getD dataRange.2) visible_latest
          if fetch_from < fetch_to then some (fetch_from, fetch_to) else Option.none

/-- A value representable as a `u64` (the engine's timestamp type). -/
def fitsU64 (n : Nat) : Prop := n ≤ U64MAX

instance (n : Nat) : Decidable (fitsU64 n) := by unfold fitsU64; infer_instance

/-- The unchecked `current_time + 1` additions performed by
`TimeSeries::update_poc_status` (`time.rs`), one per bucket with a POC. -/
def pocScanStarts (ts : TimeSeries) : List Nat :=
  ts.datapoints.filterMap (fun kd => (kd.2.poc_price).map (fun _ => kd.1 + 1))

/-- The unchecked `target_time + 1` addition performed by
`TimeSeries::find_trade_gap` (`time.rs`) when a gap bucket exists. -/
def gapScanStart (ts : TimeSeries) : Option Nat :=
  (ts.datapoints.reverse.find? (fun kd => kd.2.footprint.trades.isEmpty)).map
    (fun kd => kd.1 + 1)

/-! ### Integrity check (claim C5) -/

theorem hasMissingKey_eq_all (mem : Nat → Bool) (time l i : Nat) :
    hasMissingKey mem time l i = !((expectedKeys time l i).all mem) := by
  rw [hasMissingKey, expectedKeys]
  split
  · rename_i h
    by_cases hm : mem time <;>
      simp [hm, hasMissingKey_eq_all mem (time + i) l i]
  · simp
termination_by l - time
decreasing_by omega

theorem collectMissing_eq_filter (mem : Nat → Bool) (time l i : Nat) :
    collectMissing mem time l i = (expectedKeys time l i).filter (fun t => !mem t) := by
  rw [collectMissing, expectedKeys]
  split
  · rename_i h
    by_cases hm : mem time <;>
      simp [hm, collectMissing_eq_filter mem (time + i) l i]
  · simp
termination_by l - time
decreasing_by all_goals omega

/-- C5: for a positive interval, `check_kline_integrity` returns exactly
the expected keys `earliest, earliest+interval, … < latest` that are
absent from the series, and `none` exactly when every expected key is
present. -/
theorem C5_check_kline_integrity (ts : TimeSeries) (e l i : Nat) (_hi : 0 < i) :
    ts.check_kline_integrity e l i =
      (if (expectedKeys e l i).all (fun t => containsKey t ts.datapoints)
        then Option.none
        else some ((expectedKeys e l i).filter
          (fun t => !(containsKey t ts.datapoints)))) := by
  unfold TimeSeries.check_kline_integrity
  rw [hasMissingKey_eq_all, collectMissing_eq_filter]
  by_cases h : (expectedKeys e l i).all (fun t => containsKey t ts.datapoints) <;>
    simp [h]

/-- A plain candle bucket with no trades, used by the concrete examples. -/
def emptyBucket (t : Nat) : KlineDataPoint where
  kline :=
    { time := t, openP := 100, high := 105, low := 95, close := 102,
      volume := ((0 : ℚ), (0 : ℚ)) }
  footprint := KlineTrades.new

/-- A series holding buckets at times 0 and 20 with interval 10 ms. -/
def exTsGap : TimeSeries where
  datapoints := [(0, emptyBucket 0), (20, emptyBucket 20)]
  interval := 10
  tick_size := 1

/-- Witness for C5: on the concrete series with buckets `{0, 20}`,
expected keys `0, 10, 20 (< 30)`, the integrity check reports exactly the
missing key `10`. -/
theorem C5_check_kline_integrity_witness :
    exTsGap.check_kline_integrity 0 30 10 = some [10] := by
  rw [C5_check_kline_integrity exTsGap 0 30 10 (by decide)]
  rw [expectedKeys, expectedKeys, expectedKeys, expectedKeys]
  simp [containsKey, exTsGap, emptyBucket]

/-! ### Price scale (claim C7) -/

theorem ite_gt_eq_max (a h : Price) : (if h > a then h else a) = max a h := by
  rcases lt_or_ge a h with hc | hc
  · simp [hc, max_eq_right hc.le]
  · simp [not_lt.mpr hc, max_eq_left hc]

theorem ite_lt_eq_min (b low : Price) : (if low < b then low else b) = min b low := by
  rcases lt_or_ge low b with hc | hc
  · simp [hc, min_eq_right hc.le]
  · simp [not_lt.mpr hc, min_eq_left hc]

theorem pairScale_foldl (m : List (Nat × KlineDataPoint)) (a b : Price) :
    m.foldl
      (fun hl kd' =>
        (if kd'.2.value_high > hl.1 then kd'.2.value_high else hl.1,
         if kd'.2.value_low < hl.2 then kd'.2.value_low else hl.2))
      (a, b)
    = ((m.map (fun kd => kd.2.value_high)).foldl max a,
       (m.map (fun kd => kd.2.value_low)).foldl min b) := by
  induction m generalizing a b with
  | nil => rfl
  | cons kd m ih =>
      have hinit : ((if kd.2.value_high > a then kd.2.value_high else a,
          if kd.2.value_low < b then kd.2.value_low else b) : Price × Price)
          = (max a kd.2.value_high, min b kd.2.value_low) := by
        rw [ite_gt_eq_max, ite_lt_eq_min]
      simp only [List.foldl_cons, List.map_cons]
      rw [hinit, ih]

theorem foldl_max_eq_maximum (xs : List Int) (a : Int) :
    ((xs.foldl max a : Int) : WithBot Int) = List.maximum (a :: xs) := by
  induction xs generalizing a with
  | nil => simp
  | cons x xs ih =>
      rw [List.foldl_cons, ih, List.maximum_cons, List.maximum_cons,
        List.maximum_cons, ← max_assoc, WithBot.coe_max]

theorem foldl_min_eq_minimum (xs : List Int) (a : Int) :
    ((xs.foldl min a : Int) : WithTop Int) = List.minimum (a :: xs) := by
  induction xs generalizing a with
  | nil => simp
  | cons x xs ih =>
      rw [List.foldl_cons, ih, List.minimum_cons, List.minimum_cons,
        List.minimum_cons, ← min_assoc, WithTop.coe_min]

theorem maximum_reverse (xs : List Int) : xs.reverse.maximum = xs.maximum := by
  induction xs with
  | nil => rfl
  | cons x xs ih =>
      rw [List.reverse_cons, List.maximum_concat, ih, List.maximum_cons, max_comm]

theorem minimum_reverse (xs : List Int) : xs.reverse.minimum = xs.minimum := by
  induction xs with
  | nil => rfl
  | cons x xs ih =>
      rw [List.reverse_cons, List.minimum_concat, ih, List.minimum_cons, min_comm]

/-- The specification's independent recomputation for `price_scale`: the
maximum `value_high` over all buckets of the series, `0` when empty. -/
def specMaxHigh (l : List (Nat × KlineDataPoint)) : Price :=
  ((l.map (fun kd => kd.2.value_high)).maximum).unbot' 0

/-- The specification's independent recomputation for `price_scale`: the
minimum `value_low` over all buckets of the series, `0` when empty. -/
def specMinLow (l : List (Nat × KlineDataPoint)) : Price :=
  ((l.map (fun kd => kd.2.value_low)).minimum).untop' 0

/-- C7: with `lookback` at least the series length, `price_scale` returns
the maximum `value_high` and minimum `value_low` over all buckets of the
series; with `lookback = 0` (or an empty series) it returns `(0, 0)`. -/
theorem C7_price_scale (ts : TimeSeries) (lookback : Nat)
    (h : ts.datapoints.length ≤ lookback) :
    ts.price_scale lookback = (specMaxHigh ts.datapoints, specMinLow ts.datapoints) ∧
      ts.price_scale 0 = ((0 : Price), (0 : Price)) := by
  constructor
  · unfold TimeSeries.price_scale
    rw [List.take_of_length_le (by simpa using h)]
    rcases hrev : ts.datapoints.reverse with _ | ⟨kd, m⟩
    · have hnil : ts.datapoints = [] := by
        simpa using congrArg List.reverse hrev
      simp [hnil, specMaxHigh, specMinLow]
    · have hl : ts.datapoints = (kd :: m).reverse := by
        rw [← hrev, List.reverse_reverse]
      simp only [hrev]
      rw [pairScale_foldl]
      have hmax : specMaxHigh ts.datapoints
          = (m.map (fun kd => kd.2.value_high)).foldl max kd.2.value_high := by
        have : ((((m.map (fun kd => kd.2.value_high)).foldl max kd.2.value_high : Int)) :
            WithBot Int) = (ts.datapoints.map (fun kd => kd.2.value_high)).maximum := by
          rw [foldl_max_eq_maximum, hl, List.map_reverse, maximum_reverse, List.map_cons]
        rw [specMaxHigh, ← this, WithBot.unbot'_coe]
      have hmin : specMinLow ts.datapoints
          = (m.map (fun kd => kd.2.value_low)).foldl min kd.2.value_low := by
        have : ((((m.map (fun kd => kd.2.value_low)).foldl min kd.2.value_low : Int)) :
            WithTop Int) = (ts.datapoints.map (fun kd => kd.2.value_low)).minimum := by
          rw [foldl_min_eq_minimum, hl, List.map_reverse, minimum_reverse, List.map_cons]
        rw [specMinLow, ← this, WithTop.untop'_coe]
      rw [hmax, hmin]
  · simp [TimeSeries.price_scale]

/-- Witness for C7: on the two-bucket series, any lookback covering the
whole series yields the series-wide extrema `(105, 95)`. -/
theorem C7_price_scale_witness : exTsGap.price_scale 5 = ((105 : Price), (95 : Price)) := by
  rw [(C7_price_scale exTsGap 5 (by decide)).1]
  decide

/-! ### POC computation (claims C1 and C10) -/

theorem pocFold_spec (l : List (Price × GroupedTrades)) (acc : ℚ × Price) :
    (l.foldl
        (fun acc pg => if pg.2.total_qty > acc.1 then (pg.2.total_qty, pg.1) else acc)
        acc = acc ∨
      ∃ pg ∈ l,
        l.foldl
          (fun acc pg => if pg.2.total_qty > acc.1 then (pg.2.total_qty, pg.1) else acc)
          acc = (pg.2.total_qty, pg.1)) ∧
    acc.1 ≤ (l.foldl
        (fun acc pg => if pg.2.total_qty > acc.1 then (pg.2.total_qty, pg.1) else acc)
        acc).1 ∧
    ∀ pg ∈ l,
      pg.2.total_qty ≤ (l.foldl
        (fun acc pg => if pg.2.total_qty > acc.1 then (pg.2.total_qty, pg.1) else acc)
        acc).1 := by
  induction l generalizing acc with
  | nil => exact ⟨Or.inl rfl, le_refl _, by simp⟩
  | cons pg0 l ih =>
      rw [List.foldl_cons]
      by_cases hgt : pg0.2.total_qty > acc.1
      · rw [if_pos hgt]
        rcases ih (pg0.2.total_qty, pg0.1) with ⟨hmem, hle, hmax⟩
        refine ⟨?_, le_trans hgt.le hle, ?_⟩
        · rcases hmem with hacc | ⟨pg, hpg, hpgeq⟩
          · exact Or.inr ⟨pg0, List.mem_cons_self pg0 l, hacc⟩
          · exact Or.inr ⟨pg, List.mem_cons_of_mem pg0 hpg, hpgeq⟩
        · intro pg hpg
          rcases List.mem_cons.mp hpg with h | h
          · subst h; exact hle
          · exact hmax pg h
      · rw [if_neg hgt]
        rcases ih acc with ⟨hmem, hle, hmax⟩
        refine ⟨?_, hle, ?_⟩
        · rcases hmem with hacc | ⟨pg, hpg, hpgeq⟩
          · exact Or.inl hacc
          · exact Or.inr ⟨pg, List.mem_cons_of_mem pg0 hpg, hpgeq⟩
        · intro pg hpg
          rcases List.mem_cons.mp hpg with h | h
          · subst h; exact le_trans (not_lt.mp hgt) hle
          · exact hmax pg h

/-- C1 counterexample input: one price bin at price `5` whose quantities
are all zero (as produced by a single zero-quantity buy trade). -/
def exKtZero : KlineTrades where
  trades := [((5 : Price),
    { buy_qty := 0, sell_qty := 0, first_time := 0, last_time := 0,
      buy_count := 1, sell_count := 0 })]
  poc := Option.none

theorem isEmpty_false_of_ne_nil {α : Type} {l : List α} (h : l ≠ []) :
    l.isEmpty = false := by
  cases l with
  | nil => exact absurd rfl h
  | cons a as => rfl

/-- C1 counterexample: on a footprint whose only bin (price 5) has total
quantity zero, `calculate_poc` stores POC price `0`, which is not a bin
key — refuting the claim that the stored POC price is always a bin key. -/
theorem C1_counterexample :
    exKtZero.trades ≠ [] ∧
    (exKtZero.calculate_poc).poc_price = some (0 : Price) ∧
    ∀ pg ∈ exKtZero.trades, pg.1 ≠ (0 : Price) := by
  refine ⟨by decide, ?_, by decide⟩
  norm_num [exKtZero, KlineTrades.calculate_poc, KlineTrades.poc_price,
    GroupedTrades.total_qty]

/-- C1 (amended): `calculate_poc` on an empty footprint changes nothing
(prior POC, if any, survives); on a footprint with at least one bin of
positive total quantity, the stored POC price is a bin key whose total
quantity is maximal among all bins and the stored POC volume is that
maximum. (The amendment: with all bin totals non-positive — possible only
for zero/degenerate quantities — the stored price falls back to `0`,
which need not be a bin key.) -/
theorem C1_calculate_poc (kt : KlineTrades) :
    (kt.trades = [] → kt.calculate_poc = kt) ∧
    (∀ pg0 ∈ kt.trades, 0 < pg0.2.total_qty →
      ∃ poc, (kt.calculate_poc).poc = some poc ∧
        (∃ g, (poc.price, g) ∈ kt.trades ∧ g.total_qty = poc.volume) ∧
        (∀ pg ∈ kt.trades, pg.2.total_qty ≤ poc.volume)) := by
  constructor
  · intro hnil
    unfold KlineTrades.calculate_poc
    rw [if_pos (by simp [hnil])]
  · intro pg0 hpg0 hpos
    have hne : kt.trades.isEmpty = false :=
      isEmpty_false_of_ne_nil (List.ne_nil_of_mem hpg0)
    unfold KlineTrades.calculate_poc
    rw [hne]
    simp only [Bool.false_eq_true, if_false]
    rcases pocFold_spec kt.trades ((0 : ℚ), (0 : Price)) with ⟨hmem, _, hmax⟩
    refine ⟨_, rfl, ?_, ?_⟩
    · rcases hmem with hacc | ⟨pg, hpg, hpgeq⟩
      · exfalso
        have := hmax pg0 hpg0
        rw [hacc] at this
        exact absurd (lt_of_lt_of_le hpos this) (lt_irrefl 0)
      · exact ⟨pg.2, by rw [hpgeq]; exact hpg, by rw [hpgeq]⟩
    · exact hmax

/-- A footprint with two bins: price 10 carries total quantity 3, price 12
carries total quantity 1. -/
def exKt : KlineTrades where
  trades :=
    [((10 : Price),
      { buy_qty := 2, sell_qty := 1, first_time := 5, last_time := 6,
        buy_count := 2, sell_count := 1 }),
     ((12 : Price),
      { buy_qty := 1, sell_qty := 0, first_time := 7, last_time := 7,
        buy_count := 1, sell_count := 0 })]
  poc := Option.none

/-- Witness for C1: instantiating the amended claim on `exKt` (bin 10 has
positive quantity). -/
theorem C1_calculate_poc_witness :
    ∃ poc, (exKt.calculate_poc).poc = some poc ∧
      (∃ g, (poc.price, g) ∈ exKt.trades ∧ g.total_qty = poc.volume) ∧
      (∀ pg ∈ exKt.trades, pg.2.total_qty ≤ poc.volume) :=
  (C1_calculate_poc exKt).2
    ((10 : Price),
      { buy_qty := 2, sell_qty := 1, first_time := 5, last_time := 6,
        buy_count := 2, sell_count := 1 })
    (by decide) (by norm_num [GroupedTrades.total_qty])

/-- C10: whenever `calculate_poc` runs on a footprint with at least one
price bin, the stored POC status is reset to `None`, discarding any
previously recorded `Naked` or `Filled` status. -/
theorem C10_calculate_poc_resets_status (kt : KlineTrades) (h : kt.trades ≠ []) :
    ((kt.calculate_poc).poc).map PointOfControl.status = some NPoc.none := by
  have hne : kt.trades.isEmpty = false := isEmpty_false_of_ne_nil h
  unfold KlineTrades.calculate_poc
  rw [hne]
  simp only [Bool.false_eq_true, if_false]
  rfl

/-- A footprint that already carries a `Naked` POC record. -/
def exKtPrior : KlineTrades where
  trades := exKt.trades
  poc := some { price := 10, volume := 3, status := NPoc.naked }

/-- Witness for C10: recomputing the POC of `exKtPrior` discards the
previously recorded `Naked` status. -/
theorem C10_calculate_poc_resets_status_witness :
    ((exKtPrior.calculate_poc).poc).map PointOfControl.status = some NPoc.none :=
  C10_calculate_poc_resets_status exKtPrior (by decide)

/-! ### POC status maintenance (claims C2 and C3) -/

/-- A pending status assignment: `none` means the bucket is untouched. -/
def applyS (o : Option NPoc) (dp : KlineDataPoint) : KlineDataPoint :=
  match o with
  | Option.none => dp
  | some st => dp.set_poc_status st

/-- Apply a per-key status assignment over the whole bucket list. -/
def mapApply (g : Nat → Option NPoc) (l : List (Nat × KlineDataPoint)) :
    List (Nat × KlineDataPoint) :=
  l.map (fun kd => (kd.1, applyS (g kd.1) kd.2))

theorem set_poc_status_kline (dp : KlineDataPoint) (st : NPoc) :
    (dp.set_poc_status st).kline = dp.kline := rfl

theorem applyS_kline (o : Option NPoc) (dp : KlineDataPoint) :
    (applyS o dp).kline = dp.kline := by
  cases o <;> rfl

theorem applyS_poc_price (o : Option NPoc) (dp : KlineDataPoint) :
    (applyS o dp).poc_price = dp.poc_price := by
  cases o with
  | none => rfl
  | some st =>
      unfold applyS KlineDataPoint.set_poc_status KlineTrades.set_poc_status
        KlineDataPoint.poc_price KlineTrades.poc_price
      cases h : dp.footprint.poc <;> simp [h]

theorem applyS_some_applyS (st : NPoc) (o : Option NPoc) (dp : KlineDataPoint) :
    applyS (some st) (applyS o dp) = applyS (some st) dp := by
  cases o with
  | none => rfl
  | some st' =>
      unfold applyS KlineDataPoint.set_poc_status KlineTrades.set_poc_status
      cases h : dp.footprint.poc <;> simp [h]

theorem mapApply_none (l : List (Nat × KlineDataPoint)) :
    mapApply (fun _ => Option.none) l = l := by
  unfold mapApply applyS
  simp

theorem containsPoc_applyS (step : PriceStep) (p : Price) (o : Option NPoc)
    (dp : KlineDataPoint) :
    containsPoc step p (applyS o dp) ↔ containsPoc step p dp := by
  unfold containsPoc
  rw [applyS_kline]

theorem scanNpoc_mapApply (step : PriceStep) (p : Price) (g : Nat → Option NPoc)
    (m : List (Nat × KlineDataPoint)) (acc : NPoc) :
    scanNpoc step p (mapApply g m) acc = scanNpoc step p m acc := by
  induction m generalizing acc with
  | nil => rfl
  | cons kd m ih =>
      unfold mapApply at ih ⊢
      rw [List.map_cons]
      unfold scanNpoc
      by_cases hc : containsPoc step p kd.2
      · rw [if_pos ((containsPoc_applyS step p (g kd.1) kd.2).mpr hc), if_pos hc]
      · rw [if_neg (fun hx => hc ((containsPoc_applyS step p (g kd.1) kd.2).mp hx)),
          if_neg hc, ih]

theorem filter_mapApply (g : Nat → Option NPoc) (l : List (Nat × KlineDataPoint))
    (c : Nat) :
    (mapApply g l).filter (fun kd => c ≤ kd.1)
      = mapApply g (l.filter (fun kd => c ≤ kd.1)) := by
  unfold mapApply
  rw [List.filter_map]
  congr 1

theorem setPocStatusAt_mapApply (t : Nat) (st : NPoc) (g : Nat → Option NPoc)
    (l : List (Nat × KlineDataPoint)) :
    setPocStatusAt t st (mapApply g l)
      = mapApply (fun k => if k = t then some st else g k) l := by
  unfold setPocStatusAt mapApply
  rw [List.map_map]
  apply List.map_congr_left
  intro kd _
  by_cases hk : kd.1 = t
  · simp only [Function.comp, hk, if_pos rfl]
    rw [show (applyS (g t) kd.2).set_poc_status st = applyS (some st) (applyS (g t) kd.2)
        from rfl, applyS_some_applyS]
    simp
  · simp only [Function.comp, hk, if_neg hk]
    simp [hk]

/-- The status each processed `(time, poc price)` pair ends up assigning,
accumulated left to right (later assignments override). -/
def assignG (step : PriceStep) (orig : List (Nat × KlineDataPoint)) :
    List (Nat × Price) → (Nat → Option NPoc) → (Nat → Option NPoc)
  | [], g => g
  | cp :: U, g =>
      assignG step orig U
        (fun k =>
          if k = cp.1 then
            some (scanNpoc step cp.2 (orig.filter (fun kd => cp.1 + 1 ≤ kd.1)) NPoc.none)
          else g k)

theorem updateFold_eq_mapApply (step : PriceStep)
    (orig : List (Nat × KlineDataPoint)) (U : List (Nat × Price))
    (g : Nat → Option NPoc) :
    U.foldl
      (fun dps cp =>
        setPocStatusAt cp.1
          (scanNpoc step cp.2 (dps.filter (fun kd => cp.1 + 1 ≤ kd.1)) NPoc.none) dps)
      (mapApply g orig)
    = mapApply (assignG step orig U g) orig := by
  induction U generalizing g with
  | nil => rfl
  | cons cp U ih =>
      rw [List.foldl_cons, filter_mapApply, scanNpoc_mapApply, setPocStatusAt_mapApply,
        ih, assignG]

theorem updateFold_eq_mapApply' (step : PriceStep)
    (orig : List (Nat × KlineDataPoint)) (U : List (Nat × Price)) :
    U.foldl
      (fun dps cp =>
        setPocStatusAt cp.1
          (scanNpoc step cp.2 (dps.filter (fun kd => cp.1 + 1 ≤ kd.1)) NPoc.none) dps)
      orig
    = mapApply (assignG step orig U (fun _ => Option.none)) orig := by
  have h := updateFold_eq_mapApply step orig U (fun _ => Option.none)
  rw [mapApply_none] at h
  exact h

/-- Closed form of `update_poc_status`: each bucket's status becomes the
scan result of its own `(time, poc price)` pair over the original map. -/
theorem update_poc_status_closed (ts : TimeSeries) :
    (ts.update_poc_status).datapoints
      = mapApply
          (assignG ts.tick_size ts.datapoints
            (ts.datapoints.filterMap
              (fun kd => (kd.2.poc_price).map (fun p => (kd.1, p))))
            (fun _ => Option.none))
          ts.datapoints := by
  unfold TimeSeries.update_poc_status
  exact updateFold_eq_mapApply' ts.tick_size ts.datapoints _

theorem assignG_not_mem (step : PriceStep) (orig : List (Nat × KlineDataPoint))
    (U : List (Nat × Price)) (g : Nat → Option NPoc) (t : Nat)
    (h : t ∉ U.map Prod.fst) :
    assignG step orig U g t = g t := by
  induction U generalizing g with
  | nil => rfl
  | cons cp U ih =>
      rw [assignG, ih _ (fun hx => h (List.mem_cons_of_mem _ hx))]
      rw [if_neg (fun hx => h (by rw [List.map_cons, hx]; exact List.mem_cons_self _ _))]

theorem lookupTime_mapApply (g : Nat → Option NPoc) (t : Nat)
    (l : List (Nat × KlineDataPoint)) :
    lookupTime t (mapApply g l) = (lookupTime t l).map (applyS (g t)) := by
  induction l with
  | nil => rfl
  | cons kd l ih =>
      unfold mapApply at ih ⊢
      rw [List.map_cons]
      unfold lookupTime
      by_cases hk : kd.1 = t
      · rw [List.find?_cons_of_pos _ (by simpa using hk),
          List.find?_cons_of_pos _ (by simpa using hk)]
        simp [hk]
      · rw [List.find?_cons_of_neg _ (by simpa using hk),
          List.find?_cons_of_neg _ (by simpa using hk)]
        exact ih

theorem scanNpoc_find_some (step : PriceStep) (p : Price)
    (m : List (Nat × KlineDataPoint)) (acc : NPoc) (kd' : Nat × KlineDataPoint)
    (h : m.find? (fun kd => decide (containsPoc step p kd.2)) = some kd') :
    scanNpoc step p m acc = NPoc.filled kd'.1 := by
  induction m generalizing acc with
  | nil => cases h
  | cons kd m ih =>
      by_cases hc : containsPoc step p kd.2
      · rw [List.find?_cons_of_pos _ (by simpa using hc)] at h
        cases h
        unfold scanNpoc
        rw [if_pos hc]
      · rw [List.find?_cons_of_neg _ (by simpa using hc)] at h
        unfold scanNpoc
        rw [if_neg hc]
        exact ih _ h

theorem scanNpoc_all_out (step : PriceStep) (p : Price)
    (m : List (Nat × KlineDataPoint)) (acc : NPoc)
    (h : ∀ kd ∈ m, ¬ containsPoc step p kd.2) :
    scanNpoc step p m acc = if m.isEmpty then acc else NPoc.naked := by
  induction m generalizing acc with
  | nil => rfl
  | cons kd m ih =>
      unfold scanNpoc
      rw [if_neg (h kd (List.mem_cons_self _ _)),
        ih _ (fun x hx => h x (List.mem_cons_of_mem _ hx))]
      simp [ite_self]

theorem updates_keys_sub (l : List (Nat × KlineDataPoint)) (t : Nat)
    (h : t ∈ (l.filterMap
        (fun kd => (kd.2.poc_price).map (fun q => (kd.1, q)))).map Prod.fst) :
    t ∈ l.map Prod.fst := by
  rw [List.map_filterMap] at h
  rcases List.mem_filterMap.mp h with ⟨kd, hkd, hf⟩
  rw [Option.map_map] at hf
  cases hpoc : kd.2.poc_price with
  | none => rw [hpoc] at hf; cases hf
  | some q =>
      rw [hpoc] at hf
      refine List.mem_map.mpr ⟨kd, hkd, ?_⟩
      simpa using hf

theorem assignG_updates_lookup (step : PriceStep)
    (orig : List (Nat × KlineDataPoint)) (l : List (Nat × KlineDataPoint))
    (g : Nat → Option NPoc) (t₀ : Nat) (dp : KlineDataPoint) (p : Price)
    (hnd : (l.map Prod.fst).Nodup)
    (h1 : lookupTime t₀ l = some dp) (h2 : dp.poc_price = some p) :
    assignG step orig
        (l.filterMap (fun kd => (kd.2.poc_price).map (fun q => (kd.1, q)))) g t₀
      = some (scanNpoc step p (orig.filter (fun kd => t₀ + 1 ≤ kd.1)) NPoc.none) := by
  induction l generalizing g with
  | nil => cases h1
  | cons kd l ih =>
      rw [List.map_cons, List.nodup_cons] at hnd
      by_cases hk : kd.1 = t₀
      · have hdp : kd.2 = dp := by
          unfold lookupTime at h1
          rw [List.find?_cons_of_pos _ (by simpa using hk)] at h1
          simpa using h1
        rw [List.filterMap_cons, hdp, h2]
        simp only [Option.map_some']
        rw [assignG]
        have hnot : t₀ ∉ (l.filterMap
            (fun kd => (kd.2.poc_price).map (fun q => (kd.1, q)))).map Prod.fst := by
          intro hx
          exact hnd.1 (by rw [hk]; exact updates_keys_sub l t₀ hx)
        rw [assignG_not_mem _ _ _ _ _ hnot, if_pos hk.symm, hk]
      · have h1' : lookupTime t₀ l = some dp := by
          unfold lookupTime at h1 ⊢
          rw [List.find?_cons_of_neg _ (by simpa using hk)] at h1
          exact h1
        rw [List.filterMap_cons]
        cases hpoc : kd.2.poc_price with
        | none =>
            simp only [Option.map_none']
            exact ih g hnd.2 h1'
        | some q =>
            simp only [Option.map_some']
            rw [assignG]
            exact ih _ hnd.2 h1'

theorem find?_key_min {pr : Nat × KlineDataPoint → Bool}
    (m : List (Nat × KlineDataPoint)) (kd' : Nat × KlineDataPoint)
    (hpw : m.Pairwise (fun a b => a.1 < b.1))
    (hf : m.find? pr = some kd') :
    ∀ kd ∈ m, pr kd = true → kd'.1 ≤ kd.1 := by
  induction m with
  | nil => cases hf
  | cons h0 m ih =>
      rw [List.pairwise_cons] at hpw
      by_cases hp : pr h0
      · rw [List.find?_cons_of_pos _ hp] at hf
        cases hf
        intro kd hkd _
        rcases List.mem_cons.mp hkd with rfl | hm
        · exact le_refl _
        · exact (hpw.1 kd hm).le
      · rw [List.find?_cons_of_neg _ (by simpa using hp)] at hf
        intro kd hkd hprkd
        rcases List.mem_cons.mp hkd with rfl | hm
        · exact absurd hprkd hp
        · exact ih hpw.2 hf kd hm hprkd

theorem sortedKeys_nodup (l : List (Nat × KlineDataPoint)) (hs : sortedKeys l) :
    (l.map Prod.fst).Nodup :=
  List.pairwise_map.mpr (hs.imp fun h => ne_of_lt h)

/-- C2: after `update_poc_status`, a bucket whose computed POC price is
contained in the side-aware-rounded `[low, high]` range of at least one
strictly later bucket (here: the first such bucket found is `kd'`) carries
status `Filled` at `kd'.1`, and `kd'.1` is the key of the earliest such
later bucket — so even later containing buckets do not move the recorded
fill time. -/
theorem C2_update_poc_status (ts : TimeSeries) (t₀ : Nat) (dp : KlineDataPoint)
    (p : Price) (kd' : Nat × KlineDataPoint)
    (hs : sortedKeys ts.datapoints)
    (h1 : lookupTime t₀ ts.datapoints = some dp)
    (h2 : dp.poc_price = some p)
    (h3 : (ts.datapoints.filter (fun kd => t₀ + 1 ≤ kd.1)).find?
        (fun kd => decide (containsPoc ts.tick_size p kd.2)) = some kd') :
    lookupTime t₀ (ts.update_poc_status).datapoints
        = some (dp.set_poc_status (NPoc.filled kd'.1)) ∧
    ∀ kd ∈ ts.datapoints, t₀ + 1 ≤ kd.1 → containsPoc ts.tick_size p kd.2 →
      kd'.1 ≤ kd.1 := by
  constructor
  · rw [update_poc_status_closed, lookupTime_mapApply, h1,
      assignG_updates_lookup ts.tick_size ts.datapoints ts.datapoints _ t₀ dp p
        (sortedKeys_nodup _ hs) h1 h2,
      scanNpoc_find_some _ _ _ _ kd' h3]
    rfl
  · intro kd hkd hge hc
    exact find?_key_min _ kd' (hs.filter _) h3 kd
      (List.mem_filter.mpr ⟨hkd, by simpa using hge⟩) (by simpa using hc)

/-- A candle bucket with the given low/high whose footprint carries a
computed POC at price `pocP` (volume 1, currently `Naked`). -/
def bucketWithPoc (t : Nat) (lo hi pocP : Price) : KlineDataPoint where
  kline :=
    { time := t, openP := lo, high := hi, low := lo, close := hi,
      volume := ((0 : ℚ), (0 : ℚ)) }
  footprint :=
    { trades := [(pocP,
        { buy_qty := 1, sell_qty := 0, first_time := t, last_time := t,
          buy_count := 1, sell_count := 0 })]
      poc := some { price := pocP, volume := 1, status := NPoc.naked } }

/-- A candle bucket with the given low/high and an empty footprint. -/
def plainBucket (t : Nat) (lo hi : Price) : KlineDataPoint where
  kline :=
    { time := t, openP := lo, high := hi, low := lo, close := hi,
      volume := ((0 : ℚ), (0 : ℚ)) }
  footprint := KlineTrades.new

/-- Bucket 0 has POC price 10; buckets 10 and 20 both bracket price 10. -/
def exTsNpoc : TimeSeries where
  datapoints :=
    [(0, bucketWithPoc 0 9 11 10), (10, plainBucket 10 9 11),
     (20, plainBucket 20 8 12)]
  interval := 10
  tick_size := 1

/-- Witness for C2: bucket 0's POC (price 10) is filled at time 10, the
first of the two later containing buckets. -/
theorem C2_update_poc_status_witness :
    lookupTime 0 (exTsNpoc.update_poc_status).datapoints
      = some ((bucketWithPoc 0 9 11 10).set_poc_status (NPoc.filled 10)) :=
  (C2_update_poc_status exTsNpoc 0 (bucketWithPoc 0 9 11 10) 10
    (10, plainBucket 10 9 11)
    (by unfold sortedKeys; decide) (by decide) (by decide) (by decide)).1

/-- A series holding a single bucket with a computed (Naked) POC. -/
def exTsSingle : TimeSeries where
  datapoints := [(0, bucketWithPoc 0 9 11 10)]
  interval := 10
  tick_size := 1

/-- C3 counterexample: in a series whose only bucket has a computed POC
and no later bucket exists, `update_poc_status` stores status `None`, not
`Naked` as the claim requires. -/
theorem C3_counterexample :
    (bucketWithPoc 0 9 11 10).poc_price = some (10 : Price) ∧
    exTsSingle.datapoints.filter (fun kd => 0 + 1 ≤ kd.1) = [] ∧
    ((lookupTime 0 (exTsSingle.update_poc_status).datapoints).map
        (fun dp => dp.footprint.poc.map PointOfControl.status))
      = some (some NPoc.none) ∧
    some (some NPoc.none) ≠ some (some NPoc.naked) := by
  refine ⟨by decide, by decide, ?_, by decide⟩
  decide

/-- C3 (amended): after `update_poc_status`, a bucket with a computed POC
price that no strictly later bucket's side-aware-rounded `[low, high]`
range contains ends with status `Naked` when at least one strictly later
bucket exists; when no later bucket exists at all, the status is instead
(re)set to `None` (the scan's unmodified default) — this last case is the
amendment forced by the counterexample. -/
theorem C3_update_poc_status (ts : TimeSeries) (t₀ : Nat) (dp : KlineDataPoint)
    (p : Price)
    (hs : sortedKeys ts.datapoints)
    (h1 : lookupTime t₀ ts.datapoints = some dp)
    (h2 : dp.poc_price = some p)
    (hnone : ∀ kd ∈ ts.datapoints, t₀ + 1 ≤ kd.1 →
      ¬ containsPoc ts.tick_size p kd.2) :
    lookupTime t₀ (ts.update_poc_status).datapoints
      = some (dp.set_poc_status
          (if (ts.datapoints.filter (fun kd => t₀ + 1 ≤ kd.1)).isEmpty
            then NPoc.none else NPoc.naked)) := by
  rw [update_poc_status_closed, lookupTime_mapApply, h1,
    assignG_updates_lookup ts.tick_size ts.datapoints ts.datapoints _ t₀ dp p
      (sortedKeys_nodup _ hs) h1 h2,
    scanNpoc_all_out _ _ _ _
      (fun kd hkd => hnone kd (List.mem_filter.mp hkd).1
        (by simpa using (List.mem_filter.mp hkd).2))]
  rfl

/-- Bucket 0 has POC price 10; the only later bucket spans `[20, 30]` and
does not contain it. -/
def exTsNaked : TimeSeries where
  datapoints := [(0, bucketWithPoc 0 9 11 10), (10, plainBucket 10 20 30)]
  interval := 10
  tick_size := 1

/-- Witness for C3: with one later non-containing bucket present, bucket
0's POC ends `Naked`. -/
theorem C3_update_poc_status_witness :
    lookupTime 0 (exTsNaked.update_poc_status).datapoints
      = some ((bucketWithPoc 0 9 11 10).set_poc_status
          (if (exTsNaked.datapoints.filter (fun kd => 0 + 1 ≤ kd.1)).isEmpty
            then NPoc.none else NPoc.naked)) :=
  C3_update_poc_status exTsNaked 0 (bucketWithPoc 0 9 11 10) 10
    (by unfold sortedKeys; decide) (by decide) (by decide) (by decide)

/-! ### Trade insertion (claims C6 and C9) -/

theorem lookupTime_nil (k : Nat) : lookupTime k [] = Option.none := rfl

theorem lookupTime_cons_self (k : Nat) (dp : KlineDataPoint)
    (l : List (Nat × KlineDataPoint)) :
    lookupTime k ((k, dp) :: l) = some dp := by
  unfold lookupTime
  rw [List.find?_cons_of_pos _ (by simp)]
  rfl

theorem lookupTime_cons_ne (k : Nat) (kd : Nat × KlineDataPoint)
    (l : List (Nat × KlineDataPoint)) (h : kd.1 ≠ k) :
    lookupTime k (kd :: l) = lookupTime k l := by
  unfold lookupTime
  rw [List.find?_cons_of_neg _ (by simpa using h)]

theorem lookupTime_all_gt (k : Nat) (l : List (Nat × KlineDataPoint))
    (h : ∀ kd ∈ l, k < kd.1) : lookupTime k l = Option.none := by
  induction l with
  | nil => rfl
  | cons kd l ih =>
      rw [lookupTime_cons_ne k kd l (by
        have := h kd (List.mem_cons_self _ _)
        omega)]
      exact ih (fun x hx => h x (List.mem_cons_of_mem _ hx))

theorem mem_upsertTrade_keys (step : PriceStep) (rt : Nat) (tr : Trade)
    (l : List (Nat × KlineDataPoint)) (x : Nat × KlineDataPoint)
    (hx : x ∈ upsertTrade step rt tr l) :
    x.1 = rt ∨ x.1 ∈ l.map Prod.fst := by
  induction l with
  | nil =>
      rw [upsertTrade] at hx
      rcases List.mem_singleton.mp hx with rfl
      exact Or.inl rfl
  | cons kd l ih =>
      rw [upsertTrade] at hx
      split at hx
      · rcases List.mem_cons.mp hx with rfl | hx'
        · exact Or.inl rfl
        · exact Or.inr (List.mem_map.mpr ⟨x, hx', rfl⟩)
      · split at hx
        · rcases List.mem_cons.mp hx with rfl | hx'
          · rename_i hnlt heq
            exact Or.inl heq.symm
          · exact Or.inr (List.mem_map.mpr ⟨x, List.mem_cons_of_mem _ hx', rfl⟩)
        · rcases List.mem_cons.mp hx with rfl | hx'
          · exact Or.inr (List.mem_map.mpr ⟨x, List.mem_cons_self _ _, rfl⟩)
          · rcases ih hx' with h | h
            · exact Or.inl h
            · rcases List.mem_map.mp h with ⟨y, hy, hyx⟩
              exact Or.inr (List.mem_map.mpr ⟨y, List.mem_cons_of_mem _ hy, hyx⟩)

theorem sortedKeys_upsertTrade (step : PriceStep) (rt : Nat) (tr : Trade)
    (l : List (Nat × KlineDataPoint)) (hs : sortedKeys l) :
    sortedKeys (upsertTrade step rt tr l) := by
  induction l with
  | nil => exact List.pairwise_singleton _ _
  | cons kd l ih =>
      replace hs := List.pairwise_cons.mp hs
      rw [upsertTrade]
      split
      · rename_i hlt
        refine List.pairwise_cons.mpr ⟨?_, List.pairwise_cons.mpr hs⟩
        intro x hx
        rcases List.mem_cons.mp hx with rfl | hx'
        · exact hlt
        · exact lt_trans hlt (hs.1 x hx')
      · split
        · rename_i hne heq
          exact List.pairwise_cons.mpr ⟨hs.1, hs.2⟩
        · rename_i hne1 hne2
          refine List.pairwise_cons.mpr ⟨?_, ih hs.2⟩
          intro x hx
          rcases mem_upsertTrade_keys step rt tr l x hx with h | h
          · omega
          · rcases List.mem_map.mp h with ⟨y, hy, hyx⟩
            rw [← hyx]
            exact hs.1 y hy

theorem lookupTime_upsertTrade (step : PriceStep) (rt : Nat) (tr : Trade)
    (l : List (Nat × KlineDataPoint)) (hs : sortedKeys l) (k : Nat) :
    lookupTime k (upsertTrade step rt tr l)
      = if k = rt
        then some (((lookupTime rt l).getD (seedBucket rt tr)).add_trade tr step)
        else lookupTime k l := by
  induction l with
  | nil =>
      rw [upsertTrade]
      by_cases hk : k = rt
      · subst hk
        rw [if_pos rfl, lookupTime_cons_self, lookupTime_nil]
        rfl
      · rw [if_neg hk, lookupTime_cons_ne _ _ _ (fun hx => hk hx.symm)]
  | cons kd l ih =>
      replace hs := List.pairwise_cons.mp hs
      rw [upsertTrade]
      split
      · rename_i hlt
        by_cases hk : k = rt
        · rw [if_pos hk]
          have hlk0 : lookupTime k ((rt, (seedBucket rt tr).add_trade tr step) :: kd :: l)
              = some ((seedBucket rt tr).add_trade tr step) := by
            unfold lookupTime
            rw [List.find?_cons_of_pos _ (by simp [hk])]
            rfl
          rw [hlk0, lookupTime_all_gt rt (kd :: l) (by
            intro x hx
            rcases List.mem_cons.mp hx with rfl | hx'
            · exact hlt
            · exact lt_trans hlt (hs.1 x hx'))]
          rfl
        · rw [if_neg hk, lookupTime_cons_ne _ _ _ (fun hx => hk hx.symm)]
      · split
        · rename_i hnlt heq
          by_cases hk : k = rt
          · rw [if_pos hk]
            have hlk2 : lookupTime k ((kd.1, kd.2.add_trade tr step) :: l)
                = some (kd.2.add_trade tr step) := by
              unfold lookupTime
              rw [List.find?_cons_of_pos _ (by simp [← heq, hk])]
              rfl
            have hlk : lookupTime rt (kd :: l) = some kd.2 := by
              unfold lookupTime
              rw [List.find?_cons_of_pos _ (by simp [← heq])]
              rfl
            rw [hlk2, hlk]
            rfl
          · rw [if_neg hk]
            rw [lookupTime_cons_ne _ (kd.1, kd.2.add_trade tr step) _
              (fun hx => hk (by rw [← hx]; exact heq.symm))]
            rw [lookupTime_cons_ne _ kd _ (fun hx => hk (by rw [← hx]; exact heq.symm))]
        · rename_i hnlt hne
          have hgt : kd.1 < rt := by omega
          by_cases hk : k = rt
          · rw [if_pos hk, lookupTime_cons_ne _ kd _ (by omega), ih hs.2, if_pos hk,
              lookupTime_cons_ne _ kd _ (by omega)]
          · by_cases hkd : kd.1 = k
            · have hlk2 : lookupTime k (kd :: upsertTrade step rt tr l) = some kd.2 := by
                unfold lookupTime
                rw [List.find?_cons_of_pos _ (by simp [hkd])]
                rfl
              have hlk : lookupTime k (kd :: l) = some kd.2 := by
                unfold lookupTime
                rw [List.find?_cons_of_pos _ (by simp [hkd])]
                rfl
              rw [if_neg hk, hlk2, hlk]
            · rw [lookupTime_cons_ne _ kd _ hkd, ih hs.2, if_neg hk,
                lookupTime_cons_ne _ kd _ hkd, if_neg hk]

theorem insertFold_split (step : PriceStep) (aggr : Nat) (buffer : List Trade)
    (l : List (Nat × KlineDataPoint)) (times : List Nat) :
    buffer.foldl
      (fun acc trade =>
        (upsertTrade step (trade.time / aggr * aggr) trade acc.1,
         pushNew acc.2 (trade.time / aggr * aggr)))
      (l, times)
    = (buffer.foldl
        (fun dps trade => upsertTrade step (trade.time / aggr * aggr) trade dps) l,
       buffer.foldl (fun ts trade => pushNew ts (trade.time / aggr * aggr)) times) := by
  induction buffer generalizing l times with
  | nil => rfl
  | cons tr buffer ih =>
      rw [List.foldl_cons, List.foldl_cons, List.foldl_cons]
      exact ih _ _

theorem mem_pushNew (times : List Nat) (x t : Nat) :
    t ∈ pushNew times x ↔ t ∈ times ∨ t = x := by
  unfold pushNew
  by_cases h : times.contains x
  · rw [if_pos h]
    have hx : x ∈ times := by simpa using h
    constructor
    · exact Or.inl
    · rintro (ht | rfl)
      · exact ht
      · exact hx
  · rw [if_neg h]
    simp

theorem mem_pushNewFold (aggr : Nat) (buffer : List Trade) (times : List Nat)
    (t : Nat) :
    t ∈ buffer.foldl (fun ts trade => pushNew ts (trade.time / aggr * aggr)) times
      ↔ t ∈ times ∨ t ∈ buffer.map (fun trade => trade.time / aggr * aggr) := by
  induction buffer generalizing times with
  | nil => simp
  | cons tr buffer ih =>
      rw [List.foldl_cons, ih, mem_pushNew, List.map_cons, List.mem_cons]
      tauto

theorem lookupTime_mapIf (f : KlineDataPoint → KlineDataPoint) (t k : Nat)
    (l : List (Nat × KlineDataPoint)) :
    lookupTime k (l.map (fun kd => if kd.1 = t then (kd.1, f kd.2) else kd))
      = if k = t then (lookupTime k l).map f else lookupTime k l := by
  induction l with
  | nil => by_cases hk : k = t <;> simp [hk, lookupTime]
  | cons kd l ih =>
      rw [List.map_cons]
      by_cases hkd : kd.1 = k
      · have hd1 : (if kd.1 = t then (kd.1, f kd.2) else kd).1 = kd.1 := by
          split <;> rfl
        have hd2 : (if kd.1 = t then (kd.1, f kd.2) else kd).2
            = if kd.1 = t then f kd.2 else kd.2 := by
          split <;> rfl
        have hL : lookupTime k ((if kd.1 = t then (kd.1, f kd.2) else kd)
            :: l.map (fun kd => if kd.1 = t then (kd.1, f kd.2) else kd))
            = some (if kd.1 = t then f kd.2 else kd.2) := by
          unfold lookupTime
          rw [List.find?_cons_of_pos _ (by rw [hd1]; simpa using hkd)]
          rw [Option.map_some', hd2]
        have hR : lookupTime k (kd :: l) = some kd.2 := by
          unfold lookupTime
          rw [List.find?_cons_of_pos _ (by simp [hkd])]
          rfl
        rw [hL, hR]
        by_cases hk : k = t
        · rw [if_pos hk, if_pos (by rw [hkd, hk]), Option.map_some']
        · rw [if_neg hk, if_neg (by rw [hkd]; exact hk)]
      · have hd1 : (if kd.1 = t then (kd.1, f kd.2) else kd).1 ≠ k := by
          split <;> exact hkd
        rw [lookupTime_cons_ne _ _ _ hd1, lookupTime_cons_ne _ _ _ hkd, ih]

theorem lookupTime_applyPocAt (t k : Nat) (l : List (Nat × KlineDataPoint)) :
    lookupTime k (applyPocAt t l)
      = if k = t then (lookupTime k l).map KlineDataPoint.calculate_poc
        else lookupTime k l := by
  unfold applyPocAt
  exact lookupTime_mapIf _ t k l

theorem calculate_poc_trades (kt : KlineTrades) :
    (kt.calculate_poc).trades = kt.trades := by
  unfold KlineTrades.calculate_poc
  split <;> rfl

theorem calculate_poc_of_nonempty (kt : KlineTrades) (h : kt.trades.isEmpty = false) :
    kt.calculate_poc = { trades := kt.trades, poc := some {
      price := (kt.trades.foldl
        (fun acc pg => if pg.2.total_qty > acc.1 then (pg.2.total_qty, pg.1) else acc)
        ((0 : ℚ), (0 : Price))).2,
      volume := (kt.trades.foldl
        (fun acc pg => if pg.2.total_qty > acc.1 then (pg.2.total_qty, pg.1) else acc)
        ((0 : ℚ), (0 : Price))).1,
      status := NPoc.none } } := by
  unfold KlineTrades.calculate_poc
  rw [h]
  rfl

theorem calculate_poc_idem_kt (kt : KlineTrades) :
    kt.calculate_poc.calculate_poc = kt.calculate_poc := by
  by_cases h : kt.trades.isEmpty
  · have h1 : kt.calculate_poc = kt := by
      unfold KlineTrades.calculate_poc
      rw [if_pos h]
    rw [h1, h1]
  · have h' : kt.trades.isEmpty = false := by simpa using h
    rw [calculate_poc_of_nonempty kt h']
    exact calculate_poc_of_nonempty _ h'

theorem calculate_poc_idem (dp : KlineDataPoint) :
    dp.calculate_poc.calculate_poc = dp.calculate_poc := by
  unfold KlineDataPoint.calculate_poc
  rw [calculate_poc_idem_kt]

theorem lookupTime_pocFold (times : List Nat) (l : List (Nat × KlineDataPoint))
    (k : Nat) :
    lookupTime k (times.foldl (fun l t => applyPocAt t l) l)
      = if k ∈ times then (lookupTime k l).map KlineDataPoint.calculate_poc
        else lookupTime k l := by
  induction times generalizing l with
  | nil => simp
  | cons t times ih =>
      rw [List.foldl_cons, ih]
      by_cases hkt : k ∈ times
      · rw [if_pos hkt, if_pos (List.mem_cons_of_mem _ hkt), lookupTime_applyPocAt]
        by_cases hk : k = t
        · rw [if_pos hk]
          cases hx : lookupTime k l with
          | none => rfl
          | some dp => simp [calculate_poc_idem]
        · rw [if_neg hk]
      · rw [if_neg hkt, lookupTime_applyPocAt]
        by_cases hk : k = t
        · rw [if_pos hk, if_pos (by rw [hk]; exact List.mem_cons_self _ _)]
        · rw [if_neg hk, if_neg (by
            intro hx
            rcases List.mem_cons.mp hx with h | h
            · exact hk h
            · exact hkt h)]

theorem insertTrades_phase1_lookup (step : PriceStep) (aggr : Nat)
    (buffer : List Trade) (l : List (Nat × KlineDataPoint)) (hs : sortedKeys l)
    (k : Nat) :
    lookupTime k (buffer.foldl
        (fun dps trade => upsertTrade step (trade.time / aggr * aggr) trade dps) l)
      = match buffer.filter (fun trade => trade.time / aggr * aggr == k) with
        | [] => lookupTime k l
        | t0 :: rest =>
            some ((t0 :: rest).foldl (fun dp trade => dp.add_trade trade step)
              ((lookupTime k l).getD (seedBucket k t0))) := by
  induction buffer generalizing l with
  | nil => rfl
  | cons tr buffer ih =>
      rw [List.foldl_cons, List.filter_cons,
        ih _ (sortedKeys_upsertTrade _ _ _ _ hs)]
      by_cases hrt : tr.time / aggr * aggr = k
      · rw [if_pos (by simpa using hrt),
          lookupTime_upsertTrade _ _ _ _ hs k, if_pos hrt.symm, hrt]
        cases hf : buffer.filter (fun trade => trade.time / aggr * aggr == k) with
        | nil => rfl
        | cons t0 rest => simp [List.foldl_cons]
      · rw [if_neg (by simpa using hrt),
          lookupTime_upsertTrade _ _ _ _ hs k, if_neg (fun hx => hrt hx.symm)]

/-- C6: `insert_trades_or_create_bucket` routes each trade into the bucket
keyed `trade.time / interval * interval`; a bucket absent before the call
is created as `seedBucket` (OHLC all equal to the first routed trade's
price, volume `(0, 0)`); after the batch, `calculate_poc` has run on
exactly the touched buckets — a bucket touched by no trade of the batch is
returned unchanged, POC included. -/
theorem C6_insert_trades_or_create_bucket (ts : TimeSeries) (buffer : List Trade)
    (hs : sortedKeys ts.datapoints) (_hi : 0 < ts.interval) (k : Nat) :
    lookupTime k (ts.insert_trades_or_create_bucket buffer).datapoints
      = match buffer.filter
          (fun trade => trade.time / ts.interval * ts.interval == k) with
        | [] => lookupTime k ts.datapoints
        | t0 :: rest =>
            some (((t0 :: rest).foldl
              (fun dp trade => dp.add_trade trade ts.tick_size)
              ((lookupTime k ts.datapoints).getD (seedBucket k t0))).calculate_poc) := by
  by_cases hb : buffer.isEmpty
  · have hbe : buffer = [] := by simpa using hb
    subst hbe
    rfl
  · simp only [TimeSeries.insert_trades_or_create_bucket, if_neg hb]
    rw [insertFold_split, lookupTime_pocFold,
      insertTrades_phase1_lookup ts.tick_size ts.interval buffer ts.datapoints hs k]
    by_cases hmem : k ∈ buffer.map (fun trade => trade.time / ts.interval * ts.interval)
    · rw [if_pos ((mem_pushNewFold _ _ _ _).mpr (Or.inr hmem))]
      cases hf : buffer.filter
          (fun trade => trade.time / ts.interval * ts.interval == k) with
      | nil =>
          exfalso
          rcases List.mem_map.mp hmem with ⟨tr, htr, hrt⟩
          have hmf : tr ∈ buffer.filter
              (fun trade => trade.time / ts.interval * ts.interval == k) :=
            List.mem_filter.mpr ⟨htr, by simpa using hrt⟩
          rw [hf] at hmf
          cases hmf
      | cons t0 rest => rfl
    · rw [if_neg (fun hx => by
        rcases (mem_pushNewFold _ _ _ _).mp hx with h | h
        · cases h
        · exact hmem h)]
      cases hf : buffer.filter
          (fun trade => trade.time / ts.interval * ts.interval == k) with
      | nil => rfl
      | cons t0 rest =>
          exfalso
          have ht0 : t0 ∈ buffer.filter
              (fun trade => trade.time / ts.interval * ts.interval == k) := by
            rw [hf]
            exact List.mem_cons_self _ _
          have hm := List.mem_filter.mp ht0
          exact hmem (List.mem_map.mpr ⟨t0, hm.1, by simpa using hm.2⟩)

/-- A buy trade at time 5, price 100, quantity 1. -/
def exTrade : Trade where
  time := 5
  price := 100
  qty := 1
  is_sell := false

/-- Witness for C6: inserting the batch `[exTrade]` (routed to bucket 0)
into the two-bucket series leaves the untouched bucket 20 unchanged. -/
theorem C6_insert_trades_or_create_bucket_witness :
    lookupTime 20 ((exTsGap.insert_trades_or_create_bucket [exTrade]).datapoints)
      = some (emptyBucket 20) := by
  rw [C6_insert_trades_or_create_bucket exTsGap [exTrade] (by decide) (by decide) 20]
  decide

theorem add_trade_kline (dp : KlineDataPoint) (tr : Trade) (step : PriceStep) :
    (dp.add_trade tr step).kline = dp.kline := rfl

theorem calculate_poc_kline (dp : KlineDataPoint) :
    (dp.calculate_poc).kline = dp.kline := rfl

theorem map_kline_modifyTradeAt (step : PriceStep) (rt : Nat) (tr : Trade)
    (l : List (Nat × KlineDataPoint)) :
    (modifyTradeAt step rt tr l).map (fun kd => (kd.1, kd.2.kline))
      = l.map (fun kd => (kd.1, kd.2.kline)) := by
  unfold modifyTradeAt
  rw [List.map_map]
  apply List.map_congr_left
  intro kd _
  by_cases hk : kd.1 = rt <;> simp [Function.comp, hk, add_trade_kline]

theorem map_kline_applyPocAt (t : Nat) (l : List (Nat × KlineDataPoint)) :
    (applyPocAt t l).map (fun kd => (kd.1, kd.2.kline))
      = l.map (fun kd => (kd.1, kd.2.kline)) := by
  unfold applyPocAt
  rw [List.map_map]
  apply List.map_congr_left
  intro kd _
  by_cases hk : kd.1 = t <;> simp [Function.comp, hk, calculate_poc_kline]

theorem map_kline_existingPhase1 (step : PriceStep) (aggr : Nat)
    (buffer : List Trade) (l : List (Nat × KlineDataPoint)) (times : List Nat) :
    ((buffer.foldl
        (fun acc trade =>
          if containsKey (trade.time / aggr * aggr) acc.1
          then (modifyTradeAt step (trade.time / aggr * aggr) trade acc.1,
                pushNew acc.2 (trade.time / aggr * aggr))
          else acc)
        (l, times)).1).map (fun kd => (kd.1, kd.2.kline))
      = l.map (fun kd => (kd.1, kd.2.kline)) := by
  induction buffer generalizing l times with
  | nil => rfl
  | cons tr buffer ih =>
      rw [List.foldl_cons]
      by_cases hc : containsKey (tr.time / aggr * aggr) l
      · rw [if_pos hc, ih _ _, map_kline_modifyTradeAt]
      · rw [if_neg hc]
        exact ih _ _

theorem map_kline_pocFold (times : List Nat) (l : List (Nat × KlineDataPoint)) :
    ((times.foldl (fun l t => applyPocAt t l) l).map (fun kd => (kd.1, kd.2.kline)))
      = l.map (fun kd => (kd.1, kd.2.kline)) := by
  induction times generalizing l with
  | nil => rfl
  | cons t times ih => rw [List.foldl_cons, ih, map_kline_applyPocAt]

/-- C9: `insert_trades_existing_buckets` preserves the key set and every
bucket's candle (OHLC and volume pair) — it mutates only footprints — and
`insert_trades_or_create_bucket` preserves the candle of every bucket that
already existed before the call. -/
theorem C9_insert_trades_frame (ts : TimeSeries) (buffer : List Trade)
    (hs : sortedKeys ts.datapoints) (_hi : 0 < ts.interval) :
    ((ts.insert_trades_existing_buckets buffer).datapoints.map
        (fun kd => (kd.1, kd.2.kline))
      = ts.datapoints.map (fun kd => (kd.1, kd.2.kline))) ∧
    ∀ k dp, lookupTime k ts.datapoints = some dp →
      (lookupTime k (ts.insert_trades_or_create_bucket buffer).datapoints).map
          KlineDataPoint.kline = some dp.kline := by
  constructor
  · by_cases hb : buffer.isEmpty
    · have hbe : buffer = [] := by simpa using hb
      subst hbe
      rfl
    · simp only [TimeSeries.insert_trades_existing_buckets, if_neg hb]
      rw [map_kline_pocFold, map_kline_existingPhase1]
  · intro k dp hdp
    rw [C6_insert_trades_or_create_bucket ts buffer hs _hi k]
    have hfold : ∀ (trs : List Trade) (dp0 : KlineDataPoint),
        (trs.foldl (fun dp trade => dp.add_trade trade ts.tick_size) dp0).kline
          = dp0.kline := by
      intro trs
      induction trs with
      | nil => intro dp0; rfl
      | cons a as iha =>
          intro dp0
          rw [List.foldl_cons, iha, add_trade_kline]
    cases hf : buffer.filter
        (fun trade => trade.time / ts.interval * ts.interval == k) with
    | nil =>
        rw [hdp]
        rfl
    | cons t0 rest =>
        rw [hdp]
        simp only [Option.getD_some, Option.map_some']
        rw [calculate_poc_kline, hfold]

/-- Witness for C9: the trade batch `[exTrade]` leaves all candles of the
two-bucket series unchanged under both insertion entry points. -/
theorem C9_insert_trades_frame_witness :
    ((exTsGap.insert_trades_existing_buckets [exTrade]).datapoints.map
        (fun kd => (kd.1, kd.2.kline))
      = exTsGap.datapoints.map (fun kd => (kd.1, kd.2.kline))) ∧
    (lookupTime 0 ((exTsGap.insert_trades_or_create_bucket [exTrade]).datapoints)).map
        KlineDataPoint.kline = some (emptyBucket 0).kline := by
  have h := C9_insert_trades_frame exTsGap [exTrade] (by decide) (by decide)
  exact ⟨h.1, h.2 0 (emptyBucket 0) (by decide)⟩

/-! ### Gap detection and fetch-range suggestion (claim C4) -/

theorem foldl_max_le (xs : List Nat) (a v : Nat) (ha : a ≤ v)
    (h : ∀ x ∈ xs, x ≤ v) : xs.foldl max a ≤ v := by
  induction xs generalizing a with
  | nil => exact ha
  | cons x xs ih =>
      rw [List.foldl_cons]
      exact ih _ (max_le ha (h x (List.mem_cons_self _ _)))
        (fun y hy => h y (List.mem_cons_of_mem _ hy))

theorem max?_append_last (xs : List Nat) (v : Nat) (h : ∀ x ∈ xs, x ≤ v) :
    (xs ++ [v]).max? = some v := by
  cases xs with
  | nil => rfl
  | cons x xs =>
      show some (List.foldl max x (xs ++ [v])) = some v
      rw [List.foldl_append]
      congr 1
      exact max_eq_right (foldl_max_le xs x v (h x (List.mem_cons_self _ _))
        (fun y hy => h y (List.mem_cons_of_mem _ hy)))

theorem foldl_min_eq (xs : List Nat) (v : Nat) (h : ∀ x ∈ xs, v ≤ x) :
    xs.foldl min v = v := by
  induction xs with
  | nil => rfl
  | cons x xs ih =>
      rw [List.foldl_cons, min_eq_left (h x (List.mem_cons_self _ _))]
      exact ih (fun y hy => h y (List.mem_cons_of_mem _ hy))

theorem min?_cons_least (v : Nat) (xs : List Nat) (h : ∀ x ∈ xs, v ≤ x) :
    (v :: xs).min? = some v := by
  show some (List.foldl min v xs) = some v
  rw [foldl_min_eq xs v h]

theorem key_step_le (i a b : Nat) (ha : a % i = 0) (hb : b % i = 0)
    (hab : a < b) : a + i ≤ b := by
  have hd : i ∣ b - a :=
    Nat.dvd_sub' (Nat.dvd_of_mod_eq_zero hb) (Nat.dvd_of_mod_eq_zero ha)
  have hle : i ≤ b - a := Nat.le_of_dvd (by omega) hd
  omega

theorem last_trade_t_bounds (i : Nat) (kd : Nat × KlineDataPoint) (v : Nat)
    (hwf : ∀ pg ∈ kd.2.footprint.trades,
      kd.1 ≤ pg.2.last_time ∧ pg.2.last_time < kd.1 + i)
    (hv : kd.2.last_trade_time = some v) : kd.1 ≤ v ∧ v < kd.1 + i := by
  unfold KlineDataPoint.last_trade_time KlineTrades.last_trade_t at hv
  have hmem : v ∈ kd.2.footprint.trades.map (fun pg => pg.2.last_time) :=
    List.max?_mem (fun x y => max_choice x y) hv
  rcases List.mem_map.mp hmem with ⟨pg, hpg, hpgv⟩
  rw [← hpgv]
  exact hwf pg hpg

theorem first_trade_t_bounds (i : Nat) (kd : Nat × KlineDataPoint) (v : Nat)
    (hwf : ∀ pg ∈ kd.2.footprint.trades,
      kd.1 ≤ pg.2.first_time ∧ pg.2.first_time < kd.1 + i)
    (hv : kd.2.first_trade_time = some v) : kd.1 ≤ v ∧ v < kd.1 + i := by
  unfold KlineDataPoint.first_trade_time KlineTrades.first_trade_t at hv
  have hmem : v ∈ kd.2.footprint.trades.map (fun pg => pg.2.first_time) :=
    List.min?_mem (fun x y => min_choice x y) hv
  rcases List.mem_map.mp hmem with ⟨pg, hpg, hpgv⟩
  rw [← hpgv]
  exact hwf pg hpg

/-- The backward nearest-bucket scan of `find_trade_gap` computes the
maximum trade timestamp over all buckets of a well-formed segment. -/
theorem findSome_rev_eq_max (i : Nat) (m : List (Nat × KlineDataPoint))
    (hsort : m.Pairwise (fun a b => a.1 < b.1))
    (hmul : ∀ kd ∈ m, kd.1 % i = 0)
    (hwf : ∀ kd ∈ m, ∀ pg ∈ kd.2.footprint.trades,
      kd.1 ≤ pg.2.last_time ∧ pg.2.last_time < kd.1 + i) :
    m.reverse.findSome? (fun kd => kd.2.last_trade_time)
      = (m.filterMap (fun kd => kd.2.last_trade_time)).max? := by
  induction m using List.reverseRecOn with
  | nil => rfl
  | append_singleton xs kd ih =>
      have hsx : xs.Pairwise (fun a b => a.1 < b.1) :=
        (List.pairwise_append.mp hsort).1
      have hlt : ∀ b ∈ xs, b.1 < kd.1 := fun b hb =>
        (List.pairwise_append.mp hsort).2.2 b hb kd (List.mem_singleton_self _)
      rw [List.reverse_append, List.reverse_singleton, List.singleton_append,
        List.findSome?_cons, List.filterMap_append]
      cases hlast : kd.2.last_trade_time with
      | none =>
          rw [ih hsx (fun b hb => hmul b (List.mem_append_left _ hb))
            (fun b hb => hwf b (List.mem_append_left _ hb))]
          have hnil : List.filterMap (fun kd => kd.2.last_trade_time) [kd] = [] := by
            simp [hlast]
          rw [hnil, List.append_nil]
      | some v =>
          have hone : List.filterMap (fun kd => kd.2.last_trade_time) [kd] = [v] := by
            simp [hlast]
          rw [hone, max?_append_last]
          intro x hx
          rcases List.mem_filterMap.mp hx with ⟨b, hb, hbx⟩
          have hbk : b.1 < kd.1 := hlt b hb
          have hbb := last_trade_t_bounds i b x
            (hwf b (List.mem_append_left _ hb)) hbx
          have hkb := last_trade_t_bounds i kd v
            (hwf kd (List.mem_append_right _ (List.mem_singleton_self _))) hlast
          have hstep := key_step_le i b.1 kd.1
            (hmul b (List.mem_append_left _ hb))
            (hmul kd (List.mem_append_right _ (List.mem_singleton_self _))) hbk
          omega

/-- The forward nearest-bucket scan of `find_trade_gap` computes the
minimum trade timestamp over all buckets of a well-formed segment. -/
theorem findSome_eq_min (i : Nat) (m : List (Nat × KlineDataPoint))
    (hsort : m.Pairwise (fun a b => a.1 < b.1))
    (hmul : ∀ kd ∈ m, kd.1 % i = 0)
    (hwf : ∀ kd ∈ m, ∀ pg ∈ kd.2.footprint.trades,
      kd.1 ≤ pg.2.first_time ∧ pg.2.first_time < kd.1 + i) :
    m.findSome? (fun kd => kd.2.first_trade_time)
      = (m.filterMap (fun kd => kd.2.first_trade_time)).min? := by
  induction m with
  | nil => rfl
  | cons kd xs ih =>
      replace hsort := List.pairwise_cons.mp hsort
      rw [List.findSome?_cons, List.filterMap_cons]
      cases hfirst : kd.2.first_trade_time with
      | none =>
          exact ih hsort.2 (fun b hb => hmul b (List.mem_cons_of_mem _ hb))
            (fun b hb => hwf b (List.mem_cons_of_mem _ hb))
      | some v =>
          rw [min?_cons_least]
          intro x hx
          rcases List.mem_filterMap.mp hx with ⟨b, hb, hbx⟩
          have hbk : kd.1 < b.1 := hsort.1 b hb
          have hbb := first_trade_t_bounds i b x
            (hwf b (List.mem_cons_of_mem _ hb)) hbx
          have hkb := first_trade_t_bounds i kd v
            (hwf kd (List.mem_cons_self _ _)) hfirst
          have hstep := key_step_le i kd.1 b.1
            (hmul kd (List.mem_cons_self _ _))
            (hmul b (List.mem_cons_of_mem _ hb)) hbk
          omega

/-- C4 (amended): with a gap bucket at `g` (the most recent bucket with an
empty footprint), the latest earlier trade timestamp `lb` and the earliest
later trade timestamp `fa` (both spec-recomputed as extrema over ALL
earlier/later buckets), `suggest_trade_fetch_range` returns the window
`(max(lb+1, visibleEarliest), min(fa-1, visibleLatest))` when its start is
strictly below its end, and nothing-to-fetch otherwise — in particular a
single-point window `[a, a]` also yields `None` (the code requires
`fetch_from < fetch_to`), which is the amendment the counterexample
forces. The `lb+1` is saturating at `u64::MAX`. -/
theorem C4_suggest_trade_fetch_range (ts : TimeSeries) (ve vl g : Nat)
    (dpg : KlineDataPoint) (lb fa : Nat)
    (hs : sortedKeys ts.datapoints)
    (hmul : ∀ kd ∈ ts.datapoints, kd.1 % ts.interval = 0)
    (hwfL : ∀ kd ∈ ts.datapoints, ∀ pg ∈ kd.2.footprint.trades,
      kd.1 ≤ pg.2.last_time ∧ pg.2.last_time < kd.1 + ts.interval)
    (hwfF : ∀ kd ∈ ts.datapoints, ∀ pg ∈ kd.2.footprint.trades,
      kd.1 ≤ pg.2.first_time ∧ pg.2.first_time < kd.1 + ts.interval)
    (hgap : ts.datapoints.reverse.find?
      (fun kd => kd.2.footprint.trades.isEmpty) = some (g, dpg))
    (hlb : ((ts.datapoints.filter (fun kd => kd.1 < g)).filterMap
      (fun kd => kd.2.last_trade_time)).max? = some lb)
    (hfa : ((ts.datapoints.filter (fun kd => g + 1 ≤ kd.1)).filterMap
      (fun kd => kd.2.first_trade_time)).min? = some fa) :
    ts.suggest_trade_fetch_range ve vl
      = if max (satAdd lb 1) ve < min (fa - 1) vl
        then some (max (satAdd lb 1) ve, min (fa - 1) vl)
        else Option.none := by
  have hne : ts.datapoints.isEmpty = false := by
    rcases hl : ts.datapoints with _ | _
    · rw [hl] at hgap
      cases hgap
    · rfl
  have hftg : ts.find_trade_gap = some (some lb, some fa) := by
    unfold TimeSeries.find_trade_gap
    rw [hgap]
    show some
      (((ts.datapoints.filter (fun kd => kd.1 < g)).reverse).findSome?
        (fun kd => kd.2.last_trade_time),
       (ts.datapoints.filter (fun kd => g + 1 ≤ kd.1)).findSome?
        (fun kd => kd.2.first_trade_time))
      = some (some lb, some fa)
    rw [findSome_rev_eq_max ts.interval _ (hs.filter _)
        (fun b hb => hmul b (List.mem_filter.mp hb).1)
        (fun b hb => hwfL b (List.mem_filter.mp hb).1),
      findSome_eq_min ts.interval _ (hs.filter _)
        (fun b hb => hmul b (List.mem_filter.mp hb).1)
        (fun b hb => hwfF b (List.mem_filter.mp hb).1)]
    rw [hlb, hfa]
  unfold TimeSeries.suggest_trade_fetch_range
  rw [hftg]
  simp only [hne, Bool.false_eq_true, if_false]
  rw [if_neg (by simp)]
  rfl

/-- A candle bucket whose footprint holds one trade at time `tt`. -/
def tradedBucket (k tt : Nat) : KlineDataPoint where
  kline :=
    { time := k, openP := 100, high := 105, low := 95, close := 100,
      volume := ((0 : ℚ), (0 : ℚ)) }
  footprint :=
    { trades := [((100 : Price),
        { buy_qty := 1, sell_qty := 0, first_time := tt, last_time := tt,
          buy_count := 1, sell_count := 0 })]
      poc := Option.none }

/-- Buckets at 10 (trade at 10), 11 (empty — the gap), 12 (trade at 12),
with a 1 ms interval: the suggested window collapses to the single point
`[11, 11]`. -/
def exTsWin : TimeSeries where
  datapoints :=
    [(10, tradedBucket 10 10), (11, emptyBucket 11), (12, tradedBucket 12 12)]
  interval := 1
  tick_size := 1

/-- C4 counterexample: a gap bucket exists, the claimed window
`[max(lb+1, ve), min(fa-1, vl)] = [11, 11]` is non-empty, yet the code
answers nothing-to-fetch because it requires `fetch_from < fetch_to`
strictly. -/
theorem C4_counterexample :
    exTsWin.suggest_trade_fetch_range 0 100 = Option.none ∧
    exTsWin.find_trade_gap = some (some 10, some 12) ∧
    max (10 + 1) 0 ≤ min (12 - 1) 100 := by
  refine ⟨?_, ?_, by decide⟩ <;> decide

/-- Buckets at 10 (trade at 10), 11 (empty — the gap), 13 (trade at 13). -/
def exTsWin2 : TimeSeries where
  datapoints :=
    [(10, tradedBucket 10 10), (11, emptyBucket 11), (13, tradedBucket 13 13)]
  interval := 1
  tick_size := 1

/-- Witness for C4: around the empty bucket 11, the suggested fetch window
is `(max(10+1, 0), min(13-1, 100)) = (11, 12)`. -/
theorem C4_suggest_trade_fetch_range_witness :
    exTsWin2.suggest_trade_fetch_range 0 100 = some (11, 12) := by
  rw [C4_suggest_trade_fetch_range exTsWin2 0 100 11 (emptyBucket 11) 10 13
    (by decide) (by decide) (by decide) (by decide) (by decide) (by decide)
    (by decide)]
  decide

/-! ### Timestamp arithmetic bounds (claim C8) -/

/-- A series whose only bucket sits at the largest u64 timestamp and
carries a computed POC. -/
def exTsMax : TimeSeries where
  datapoints := [(U64MAX, bucketWithPoc U64MAX 9 11 10)]
  interval := 1
  tick_size := 1

/-- C8 counterexample: with a bucket keyed `u64::MAX` that has a POC, the
forward scan of `update_poc_status` computes `current_time + 1 =
u64::MAX + 1`, which does not fit in a u64 — the unchecked addition
overflows, refuting the claim for the boundary value `u64::MAX`. -/
theorem C8_counterexample :
    pocScanStarts exTsMax = [U64MAX + 1] ∧ ¬ fitsU64 (U64MAX + 1) := by
  constructor
  · decide
  · decide

/-- C8 (amended): provided every bucket key is strictly below `u64::MAX`
(and trade timestamps are u64 values), no engine timestamp computation
leaves the u64 range: the `current_time + 1` scan starts of
`update_poc_status` fit, the `target_time + 1` scan start of
`find_trade_gap` fits, the saturating `+1`/`-1` of
`suggest_trade_fetch_range` always fit, and the bucket rounding
`time / interval * interval` never exceeds the trade time. At a bucket key
equal to `u64::MAX` the two unchecked `+ 1` additions overflow (see the
counterexample); the division is by `interval.to_milliseconds()`, nonzero
for every `Timeframe` per the spec. -/
theorem C8_no_overflow (ts : TimeSeries) (buffer : List Trade)
    (hkeys : ∀ kd ∈ ts.datapoints, kd.1 < U64MAX)
    (htime : ∀ tr ∈ buffer, tr.time ≤ U64MAX) :
    (∀ n ∈ pocScanStarts ts, fitsU64 n) ∧
    (∀ n, gapScanStart ts = some n → fitsU64 n) ∧
    (∀ t, t ≤ U64MAX → fitsU64 (satAdd t 1) ∧ fitsU64 (t - 1)) ∧
    (∀ tr ∈ buffer, tr.time / ts.interval * ts.interval ≤ tr.time ∧
      fitsU64 (tr.time / ts.interval * ts.interval)) := by
  refine ⟨?_, ?_, ?_, ?_⟩
  · intro n hn
    rcases List.mem_filterMap.mp hn with ⟨kd, hkd, hf⟩
    cases hp : kd.2.poc_price with
    | none => rw [hp] at hf; cases hf
    | some p =>
        rw [hp] at hf
        have hn1 : kd.1 + 1 = n := by simpa using hf
        have := hkeys kd hkd
        unfold fitsU64
        omega
  · intro n hn
    unfold gapScanStart at hn
    cases hfind : ts.datapoints.reverse.find?
        (fun kd => kd.2.footprint.trades.isEmpty) with
    | none => rw [hfind] at hn; cases hn
    | some kd =>
        rw [hfind] at hn
        have hn1 : kd.1 + 1 = n := by simpa using hn
        have hmem : kd ∈ ts.datapoints :=
          List.mem_reverse.mp (List.mem_of_find?_eq_some hfind)
        have := hkeys kd hmem
        unfold fitsU64
        omega
  · intro t ht
    constructor
    · exact min_le_right _ _
    · unfold fitsU64
      omega
  · intro tr htr
    refine ⟨Nat.div_mul_le_self _ _, ?_⟩
    exact le_trans (Nat.div_mul_le_self _ _) (htime tr htr)

/-- Witness for C8 (amended): on the concrete three-bucket series and the
one-trade batch, every computed timestamp fits in a u64. -/
theorem C8_no_overflow_witness :
    (∀ n ∈ pocScanStarts exTsNpoc, fitsU64 n) ∧
    (∀ n, gapScanStart exTsNpoc = some n → fitsU64 n) ∧
    (∀ t, t ≤ U64MAX → fitsU64 (satAdd t 1) ∧ fitsU64 (t - 1)) ∧
    (∀ tr ∈ [exTrade], tr.time / exTsNpoc.interval * exTsNpoc.interval ≤ tr.time ∧
      fitsU64 (tr.time / exTsNpoc.interval * exTsNpoc.interval)) :=
  C8_no_overflow exTsNpoc [exTrade] (by decide) (by decide)

end Flowsurface
